import Mathlib

/-!
Verification of the pokemon_crawler document-transformation pipeline:
a shallow embedding of the HTML-cleaning passes (`crawler.py`,
`write_pdf.py` class `PokemonHTMLCleaner`) and of the tree-to-block
linearizer (`write_pdf.py` classes `HTMLTableToReportLabTable` and
`PokemonHTMLToReportLab`), with theorems about the pipeline's claims.
-/

namespace PokemonCrawler

/-- A node of the parsed hypertext tree (BeautifulSoup `Tag` /
`NavigableString`).  Only the attributes the pipeline reads are carried:
the tag name, the `id` attribute, the multi-valued `class` attribute and
the `src` attribute. -/
inductive Node where
  | text (s : String)
  | elem (tag : String) (idA : Option String) (classes : List String)
      (srcA : Option String) (children : List Node)
deriving Repr

mutual
/-- Number of nodes in the subtree. -/
def nodeSize : Node → Nat
  | .text _ => 1
  | .elem _ _ _ _ cs => 1 + nodesSize cs

/-- Total number of nodes of a forest. -/
def nodesSize : List Node → Nat
  | [] => 0
  | c :: cs => nodeSize c + nodesSize cs
end

example : nodeSize (.elem "a" none [] none [.text "x"]) = 2 := rfl

mutual
/-- Induction over `Node` with a membership hypothesis for children. -/
def node_ind (P : Node → Prop) (ht : ∀ s, P (.text s))
    (he : ∀ t i c s cs, (∀ x ∈ cs, P x) → P (.elem t i c s cs)) :
    (n : Node) → P n
  | .text s => ht s
  | .elem t i c s cs => he t i c s cs (nodes_ind P ht he cs)

/-- Forest form of `node_ind`. -/
def nodes_ind (P : Node → Prop) (ht : ∀ s, P (.text s))
    (he : ∀ t i c s cs, (∀ x ∈ cs, P x) → P (.elem t i c s cs)) :
    (l : List Node) → ∀ x ∈ l, P x
  | c :: cs, x, hx =>
    (List.mem_cons.mp hx).elim
      (fun h => h ▸ node_ind P ht he c)
      (fun h => nodes_ind P ht he cs x h)
end

/-- Tag name of a node (`element.name`); `none` for text nodes. -/
def tagOf : Node → Option String
  | .text _ => none
  | .elem t _ _ _ _ => some t

/-- Does the node have the given tag name? -/
def isTag (t : String) : Node → Bool
  | .text _ => false
  | .elem tg _ _ _ _ => tg == t

/-- The `src` attribute of a node (`img_tag.get('src')`). -/
def srcOf : Node → Option String
  | .text _ => none
  | .elem _ _ _ s _ => s

/-- The children of a node (`element.contents`). -/
def childrenOf : Node → List Node
  | .text _ => []
  | .elem _ _ _ _ cs => cs

/-- The class list of a node (`element.get('class', [])`). -/
def classesOf : Node → List String
  | .text _ => []
  | .elem _ _ c _ _ => c

mutual
/-- All nodes of the subtree in document (pre-)order, the node included. -/
def allNodes : Node → List Node
  | .text s => [.text s]
  | .elem t i c s cs => .elem t i c s cs :: allNodesList cs

/-- All nodes of a forest in document order. -/
def allNodesList : List Node → List Node
  | [] => []
  | c :: cs => allNodes c ++ allNodesList cs
end

/-- Proper descendants of a node in document order: the search space of
BeautifulSoup `find` / `find_all` called on that node. -/
def descendants : Node → List Node
  | .text _ => []
  | .elem _ _ _ _ cs => allNodesList cs

/-- `element.find_all(t)`: every descendant with the given tag, document order. -/
def findAllTag (t : String) (n : Node) : List Node :=
  (descendants n).filter (isTag t)

/-- `element.find(t)`: the first descendant with the given tag, if any. -/
def findFirstTag (t : String) (n : Node) : Option Node :=
  (descendants n).find? (isTag t)

/-- `element.find([t1, t2, ...])`: first descendant whose tag is in the list. -/
def findFirstTags (ts : List String) (n : Node) : Option Node :=
  (descendants n).find? (fun m => ts.any (fun t => isTag t m))

/-- `element.find_all([t1, t2, ...])`: all descendants whose tag is in the
list, in document order (so header and data cells come interleaved in
source order). -/
def findAllTags (ts : List String) (n : Node) : List Node :=
  (descendants n).filter (fun m => ts.any (fun t => isTag t m))

/-- Python `str.strip()` on a character list: drop leading and trailing
whitespace. -/
def trimL (l : List Char) : List Char :=
  ((l.dropWhile Char.isWhitespace).reverse.dropWhile Char.isWhitespace).reverse

/-- Python `str.strip()`. -/
def strip (s : String) : String := ⟨trimL s.data⟩

/-- Python `str.lower()` (ASCII case folding). -/
def lowerStr (s : String) : String := ⟨s.data.map Char.toLower⟩

/-- Python `str.startswith(p)`. -/
def startsWithL (s p : String) : Bool := p.data.isPrefixOf s.data

mutual
/-- `element.get_text(strip=True)`: concatenation of all text descendants,
each trimmed of surrounding whitespace. -/
def getTextStrip : Node → String
  | .text s => strip s
  | .elem _ _ _ _ cs => textOfList cs

/-- Concatenated stripped text of a forest. -/
def textOfList : List Node → String
  | [] => ""
  | c :: cs => getTextStrip c ++ textOfList cs
end

/-- Is `pat` a contiguous segment of `l`? (helper for Python `in`). -/
def segIn (pat : List Char) : List Char → Bool
  | [] => pat.isEmpty
  | c :: rest => pat.isPrefixOf (c :: rest) || segIn pat rest

/-- Python substring containment `pat in s`. -/
def strContains (s pat : String) : Bool := segIn pat.toList s.toList

mutual
/-- Does this subtree (the node included) contain an `img` element? -/
def isImgIn : Node → Bool
  | .text _ => false
  | .elem t _ _ _ cs => t == "img" || anyImg cs

/-- Does the forest contain an `img` element? -/
def anyImg : List Node → Bool
  | [] => false
  | c :: cs => isImgIn c || anyImg cs
end

/-- Truthiness of `p.find('img')`: the node has an `img` descendant. -/
def hasImgDescendant : Node → Bool
  | .text _ => false
  | .elem _ _ _ _ cs => anyImg cs

/-! ### Pruning: paragraph removal (`remove_paragraphs`,
`PokemonHTMLCleaner._remove_non_image_paragraphs`) -/

mutual
/-- `remove_paragraphs` / `_remove_non_image_paragraphs`: decompose every
`p` element that has no `img` descendant; all other nodes are kept and
their subtrees processed recursively (BeautifulSoup collects the full
`find_all('p')` list up front, so paragraphs nested inside kept
paragraphs are pruned too). -/
def removeParagraphs : Node → Node
  | .text s => .text s
  | .elem t i c s cs => .elem t i c s (removeParagraphsList cs)

/-- Forest form of `removeParagraphs`. -/
def removeParagraphsList : List Node → List Node
  | [] => []
  | c :: cs =>
    if isTag "p" c && !hasImgDescendant c then removeParagraphsList cs
    else removeParagraphs c :: removeParagraphsList cs
end

/-! ### Rewrite: heading level shift (`resize_title`,
`PokemonHTMLCleaner._resize_headings`) -/

mutual
/-- One `find_all(old)` / `replace_with(new_tag)` pass: every element with
tag `a` is replaced in place by a fresh element with tag `b` holding the
(recursively processed) children; `soup.new_tag` carries no attributes,
so `id`, `class` and `src` are dropped on the retagged node. -/
def retag (a b : String) : Node → Node
  | .text s => .text s
  | .elem t i c s cs =>
    if t == a then .elem b none [] none (retagList a b cs)
    else .elem t i c s (retagList a b cs)

/-- Forest form of `retag`. -/
def retagList (a b : String) : List Node → List Node
  | [] => []
  | c :: cs => retag a b c :: retagList a b cs
end

/-- `resize_title` / `_resize_headings`: first every `h3` becomes `h4`,
then every `h2` becomes `h3`. -/
def resizeTitle (n : Node) : Node := retag "h2" "h3" (retag "h3" "h4" n)

mutual
/-- The simultaneous heading shift evaluated over original levels:
`h3 ↦ h4` and `h2 ↦ h3` in a single traversal (a level-2 heading is
never shifted twice). -/
def shiftHeading : Node → Node
  | .text s => .text s
  | .elem t i c s cs =>
    if t == "h3" then .elem "h4" none [] none (shiftHeadingList cs)
    else if t == "h2" then .elem "h3" none [] none (shiftHeadingList cs)
    else .elem t i c s (shiftHeadingList cs)

/-- Forest form of `shiftHeading`. -/
def shiftHeadingList : List Node → List Node
  | [] => []
  | c :: cs => shiftHeading c :: shiftHeadingList cs
end

/-- The level mapping of the simultaneous shift: 3 ↦ 4, 2 ↦ 3, all other
levels fixed. -/
def shiftLvl (l : Nat) : Nat :=
  if l == 3 then 4 else if l == 2 then 3 else l

/-- Heading level denoted by a tag name, if any. -/
def levelOf (t : String) : Option Nat :=
  if t == "h1" then some 1
  else if t == "h2" then some 2
  else if t == "h3" then some 3
  else if t == "h4" then some 4
  else if t == "h5" then some 5
  else if t == "h6" then some 6
  else none

mutual
/-- The heading levels occurring in a subtree, document order. -/
def headingLevels : Node → List Nat
  | .text _ => []
  | .elem t _ _ _ cs =>
    (match levelOf t with | some l => [l] | none => []) ++ headingLevelsList cs

/-- Heading levels of a forest. -/
def headingLevelsList : List Node → List Nat
  | [] => []
  | c :: cs => headingLevels c ++ headingLevelsList cs
end

/-! ### Layout classifier (`moves_two_column`,
`PokemonHTMLCleaner._format_move_lists`) -/

/-- Is the tag a container tag accepted by `find_parent(['div', 'section'])`? -/
def isContainerTag (t : String) : Bool := t == "div" || t == "section"

/-- Is the node a `div` or `section` container? -/
def isContainer : Node → Bool
  | .text _ => false
  | .elem t _ _ _ _ => isContainerTag t

/-- The classifier's anchor predicate: an `h4` whose
`get_text(strip=True).lower()` starts with `'moves learnt by'`. -/
def matchingMovesH4 (n : Node) : Bool :=
  isTag "h4" n && startsWithL (lowerStr (getTextStrip n)) "moves learnt by"

mutual
/-- Number of matching `h4` nodes in this subtree (the node included)
whose `find_parent(['div', 'section'])` lies outside the subtree: no
strict ancestor within the subtree is a container. -/
def freeMatches : Node → Nat
  | .text _ => 0
  | .elem t i c s cs =>
    (if matchingMovesH4 (.elem t i c s cs) then 1 else 0) + freeMatchesList cs

/-- Free matching `h4` count of a forest: matches claimed by a container
inside the forest are not counted. -/
def freeMatchesList : List Node → Nat
  | [] => 0
  | c :: cs => (if isContainer c then 0 else freeMatches c) + freeMatchesList cs
end

mutual
/-- `moves_two_column` / `_format_move_lists`: for every `h4` whose
normalized text starts with `'moves learnt by'`, the nearest `div` or
`section` ancestor gets `'two-column'` appended to its class list —
unconditionally, one append per matching heading, in document order
(hence `List.replicate` of the claimed-match count). -/
def movesTwoColumn : Node → Node
  | .text s => .text s
  | .elem t i c s cs =>
    .elem t i
      (if isContainerTag t then c ++ List.replicate (freeMatchesList cs) "two-column" else c)
      s (movesTwoColumnList cs)

/-- Forest form of `movesTwoColumn`. -/
def movesTwoColumnList : List Node → List Node
  | [] => []
  | c :: cs => movesTwoColumn c :: movesTwoColumnList cs
end

mutual
/-- Total number of `'two-column'` tokens in class lists of the subtree. -/
def countToken : Node → Nat
  | .text _ => 0
  | .elem _ _ c _ cs => c.count "two-column" + countTokenList cs

/-- Token count of a forest. -/
def countTokenList : List Node → Nat
  | [] => 0
  | c :: cs => countToken c + countTokenList cs
end

mutual
/-- Number of matching `h4` nodes of the subtree that are claimed by some
container inside it: each run of the classifier appends exactly this many
`'two-column'` tokens overall. -/
def totalClaimed : Node → Nat
  | .text _ => 0
  | .elem t _ _ _ cs =>
    (if isContainerTag t then freeMatchesList cs else 0) + totalClaimedList cs

/-- Claimed-match count of a forest. -/
def totalClaimedList : List Node → Nat
  | [] => 0
  | c :: cs => totalClaimed c + totalClaimedList cs
end

/-! ### Sibling-run removal: the Changes section (`remove_changes`,
`PokemonHTMLCleaner._remove_changes_section`) -/

/-- `remove_changes` (crawler.py): case-SENSITIVE anchor test
`'changes' in h2.get_text(strip=True)`. -/
def changesMatchCrawler (n : Node) : Bool :=
  isTag "h2" n && strContains (getTextStrip n) "changes"

/-- `_remove_changes_section` (write_pdf.py): case-insensitive anchor test
`'changes' in h2.get_text(strip=True).lower()`. -/
def changesMatchPdf (n : Node) : Bool :=
  isTag "h2" n && strContains (lowerStr (getTextStrip n)) "changes"

mutual
/-- Sibling-run removal of the Changes section, parametrized by the anchor
predicate (the two sources differ only there).  Each matching `h2` is
decomposed together with the run of `ul` siblings that follows it;
`find_next_sibling` skips (and keeps) text siblings, and the run stops at
the first non-`ul` element sibling. -/
def removeChangesWith (pred : Node → Bool) : Node → Node
  | .text s => .text s
  | .elem t i c s cs => .elem t i c s (removeChangesScan pred cs)

/-- Scan a sibling list for anchor headings. -/
def removeChangesScan (pred : Node → Bool) : List Node → List Node
  | [] => []
  | c :: rest =>
    if pred c then removeChangesDrop pred rest
    else removeChangesWith pred c :: removeChangesScan pred rest

/-- Inside the `ul` run following a decomposed anchor: text siblings are
skipped and kept, `ul` siblings are decomposed, and the first other
element ends the run (normal scanning resumes at it, since the outer
`find_all('h2')` loop still visits every remaining heading). -/
def removeChangesDrop (pred : Node → Bool) : List Node → List Node
  | [] => []
  | .text s :: rest => .text s :: removeChangesDrop pred rest
  | .elem t i c s cs :: rest =>
    if t == "ul" then removeChangesDrop pred rest
    else if pred (.elem t i c s cs) then removeChangesDrop pred rest
    else removeChangesWith pred (.elem t i c s cs) :: removeChangesScan pred rest
end

/-- `remove_changes` from crawler.py (case-sensitive containment test). -/
def removeChangesCrawler : Node → Node := removeChangesWith changesMatchCrawler

/-- `_remove_changes_section` from write_pdf.py (lower-cased test). -/
def removeChangesPdf : Node → Node := removeChangesWith changesMatchPdf

/-! ### Sibling-run removal: Pokédex entries (`remove_pokedex_entries`,
`PokemonHTMLCleaner._remove_pokedex_entries`) -/

/-- The anchor of the Pokédex-entries removal: `find('div', id='dex-flavor')`. -/
def isAnchorNode : Node → Bool
  | .text _ => false
  | .elem t i _ _ _ => t == "div" && i == some "dex-flavor"

mutual
/-- Does this subtree (the node included) contain the anchor? -/
def anchorIn : Node → Bool
  | .text _ => false
  | .elem t i c s cs => isAnchorNode (.elem t i c s cs) || anchorInList cs

/-- Does the forest contain the anchor? -/
def anchorInList : List Node → Bool
  | [] => false
  | c :: cs => anchorIn c || anchorInList cs
end

/-- Truthiness of `soup.find('div', id='dex-flavor')`: the anchor occurs
among the descendants. -/
def anchorDesc : Node → Bool
  | .text _ => false
  | .elem _ _ _ _ cs => anchorInList cs

/-- Forward sibling walk from the anchor: `find_next_sibling` skips (and
keeps) text siblings; element siblings with tag `div` or `h3` are
decomposed; the walk stops at the first other element. -/
def dropDivH3Run : List Node → List Node
  | [] => []
  | .text s :: rest => .text s :: dropDivH3Run rest
  | .elem t i c s cs :: rest =>
    if t == "div" || t == "h3" then dropDivH3Run rest
    else .elem t i c s cs :: rest

mutual
/-- The shared core of the Pokédex-entries removal, applied when the
anchor exists: locate the first anchor in document order and remove the
run of `div`/`h3` element siblings following it. -/
def removePokedexCore : Node → Node
  | .text s => .text s
  | .elem t i c s cs => .elem t i c s (pokedexScan cs)

/-- Scan a sibling list for the (first) anchor in document order. -/
def pokedexScan : List Node → List Node
  | [] => []
  | c :: rest =>
    if isAnchorNode c then c :: dropDivH3Run rest
    else if anchorIn c then removePokedexCore c :: rest
    else c :: pokedexScan rest
end

/-- `remove_pokedex_entries` from crawler.py: `soup.find(...)` is used
without a guard, so a missing anchor raises `AttributeError`
(`None.find_next_sibling()`), modelled as `Except.error`. -/
def removePokedexCrawler (n : Node) : Except Unit Node :=
  if anchorDesc n then .ok (removePokedexCore n) else .error ()

/-- `_remove_pokedex_entries` from write_pdf.py: the walrus guard
`if dex_entries := soup.find(...)` makes a missing anchor a silent no-op. -/
def removePokedexPdf (n : Node) : Node :=
  if anchorDesc n then removePokedexCore n else n

/-! ### Linearizer (`HTMLTableToReportLabTable`, `PokemonHTMLToReportLab`) -/

/-- One table cell of an emitted `Table` flowable: its stripped text and
whether it came from a `th` (rendered bold in the source). -/
structure Cell where
  text : String
  header : Bool
deriving Repr, DecidableEq

/-- One emitted ReportLab flowable.  `heading lvl` stands for a
`Paragraph` with style `PokemonHeading{lvl}` (the two-column group
heading uses level 3), `table` for the 9-pt table built by
`HTMLTableToReportLabTable.convert`, `smallTable` for the 8-pt table
built inside `_process_two_column_div` (whose rows are plain strings with
`th`/`td` cells interleaved in source order), and `image src` for the
embedded image fetched from `src`. -/
inductive Flowable where
  | spacer
  | title (text : String)
  | heading (level : Nat) (text : String)
  | table (data : List (List Cell))
  | smallTable (data : List (List String))
  | image (src : String)
deriving Repr, DecidableEq

/-- One row of `HTMLTableToReportLabTable.convert`: the row's `th` cells
in source order (header-flagged) followed by its `td` cells in source
order. -/
def rowOf (tr : Node) : List Cell :=
  (findAllTag "th" tr).map (fun th => ⟨getTextStrip th, true⟩) ++
  (findAllTag "td" tr).map (fun td => ⟨getTextStrip td, false⟩)

/-- The `data` list of `HTMLTableToReportLabTable.convert`: one row per
`tr` descendant, rows that end up empty are skipped (`if row:`). -/
def tableData (t : Node) : List (List Cell) :=
  (findAllTag "tr" t).filterMap (fun tr =>
    let r := rowOf tr
    if r.isEmpty then none else some r)

/-- `HTMLTableToReportLabTable.convert`: `None` when no row survives
(`if not data: return None`), otherwise the table data (column widths and
styling are rendering hints carried by the flowable's construction). -/
def convertTable (t : Node) : Option (List (List Cell)) :=
  let data := tableData t
  if data.isEmpty then none else some data

/-- One row of the small two-column table: `tr.find_all(['th', 'td'])`
yields header and data cells interleaved in source order, as plain text. -/
def smallRowOf (tr : Node) : List String :=
  (findAllTags ["th", "td"] tr).map getTextStrip

/-- The `table_data` list built inside `_process_two_column_div`. -/
def smallTableData (t : Node) : List (List String) :=
  (findAllTag "tr" t).filterMap (fun tr =>
    let r := smallRowOf tr
    if r.isEmpty then none else some r)

/-- `PokemonHTMLToReportLab._process_two_column_div`: first the group
heading (the first `h3`/`h4` descendant, emitted as a `PokemonHeading3`
paragraph), then, per descendant table with non-empty data
(`if table_data and table_data[0]:`), one small 8-pt table plus a spacer. -/
def processTwoColumnDiv (n : Node) : List Flowable :=
  (match findFirstTags ["h3", "h4"] n with
   | some h => [.heading 3 (getTextStrip h)]
   | none => []) ++
  (let tables := findAllTag "table" n
   if tables.isEmpty then []
   else tables.flatMap (fun t =>
     match smallTableData t with
     | [] => []
     | r0 :: rs => if r0.isEmpty then [] else [.smallTable (r0 :: rs), .spacer]))

/-- The image collaborator: `requests.get(urljoin(BASE_URL, src))`.
`Except.error` models a raised exception (swallowed by the bare
`except Exception: pass`), `Except.ok status` a response with that
status code. -/
abbrev Fetch := String → Except Unit Nat

mutual
/-- `PokemonHTMLToReportLab._process_element`: the dispatch on
`element.name` in source order — headings `h2`/`h3`/`h4`, tables,
two-column divs, ordinary divs (recurse), paragraphs with an image
(fetch and embed, silently skipping on failure or non-200 status), and
the final recursive case for any other element with children that is not
`script`/`style`. -/
def processElement (fetch : Fetch) : Node → List Flowable
  | .text _ => []
  | .elem tag idA cls srcA cs =>
    if tag == "h2" then [.spacer, .heading 2 (textOfList cs)]
    else if tag == "h3" then [.spacer, .heading 3 (textOfList cs)]
    else if tag == "h4" then [.spacer, .heading 4 (textOfList cs)]
    else if tag == "table" then
      match convertTable (.elem tag idA cls srcA cs) with
      | none => []
      | some d => [.spacer, .table d, .spacer]
    else if tag == "div" && cls.contains "two-column" then
      processTwoColumnDiv (.elem tag idA cls srcA cs)
    else if tag == "div" then processList fetch cs
    else if tag == "p" && hasImgDescendant (.elem tag idA cls srcA cs) then
      match findFirstTag "img" (.elem tag idA cls srcA cs) with
      | none => []
      | some img =>
        match srcOf img with
        | none => []
        | some s =>
          if s.isEmpty then []
          else
            match fetch s with
            | .error _ => []
            | .ok status => if status == 200 then [.image s] else []
    else if !cs.isEmpty && !(tag == "script" || tag == "style") then
      processList fetch cs
    else []

/-- `for child in element.children: self._process_element(child, elements)`. -/
def processList (fetch : Fetch) : List Node → List Flowable
  | [] => []
  | c :: rest => processElement fetch c ++ processList fetch rest
end

/-- `PokemonHTMLToReportLab.convert`: the `h1` title (followed by a
spacer) if present, then the traversal of the first `main` element. -/
def convertDoc (fetch : Fetch) (soup : Node) : List Flowable :=
  (match findFirstTag "h1" soup with
   | some h1 => [.title (getTextStrip h1), .spacer]
   | none => []) ++
  (match findFirstTag "main" soup with
   | some m => processElement fetch m
   | none => [])

mutual
/-- Instrumented twin of `processElement`: every emitted flowable is
paired with the pre-order (document-order) index of the node whose
dispatch case emitted it; the node under scrutiny has index `i`, and its
`k`-th child subtree starts at `i + 1 +` the sizes of the earlier child
subtrees. -/
def goIndexed (fetch : Fetch) : Nat → Node → List (Nat × Flowable)
  | _, .text _ => []
  | i, .elem tag idA cls srcA cs =>
    if tag == "h2" then [(i, .spacer), (i, .heading 2 (textOfList cs))]
    else if tag == "h3" then [(i, .spacer), (i, .heading 3 (textOfList cs))]
    else if tag == "h4" then [(i, .spacer), (i, .heading 4 (textOfList cs))]
    else if tag == "table" then
      match convertTable (.elem tag idA cls srcA cs) with
      | none => []
      | some d => [(i, .spacer), (i, .table d), (i, .spacer)]
    else if tag == "div" && cls.contains "two-column" then
      (processTwoColumnDiv (.elem tag idA cls srcA cs)).map (fun b => (i, b))
    else if tag == "div" then goIndexedList fetch (i + 1) cs
    else if tag == "p" && hasImgDescendant (.elem tag idA cls srcA cs) then
      (processElement fetch (.elem tag idA cls srcA cs)).map (fun b => (i, b))
    else if !cs.isEmpty && !(tag == "script" || tag == "style") then
      goIndexedList fetch (i + 1) cs
    else []

/-- Forest form of `goIndexed`; the index advances by each subtree size. -/
def goIndexedList (fetch : Fetch) : Nat → List Node → List (Nat × Flowable)
  | _, [] => []
  | i, c :: rest => goIndexed fetch i c ++ goIndexedList fetch (i + nodeSize c) rest
end

/-! ### Auxiliary observers used by the theorems -/

/-- Which flowables survive when the image collaborator is `fetch`: an
`image` block survives exactly when its fetch returns status 200, every
other block always survives. -/
def keepBlock (fetch : Fetch) : Flowable → Bool
  | .image u => match fetch u with | .ok status => status == 200 | .error _ => false
  | _ => true

/-- Is the flowable an ordinary (9-pt) table block? -/
def isTableB : Flowable → Bool
  | .table _ => true
  | _ => false

/-- Is the flowable a small (8-pt, two-column grid) table block? -/
def isSmallTableB : Flowable → Bool
  | .smallTable _ => true
  | _ => false

/-- Is the flowable a heading paragraph? -/
def isHeadingB : Flowable → Bool
  | .heading _ _ => true
  | _ => false

mutual
/-- Number of `p` elements in a subtree. -/
def countP : Node → Nat
  | .text _ => 0
  | .elem t _ _ _ cs => (if t == "p" then 1 else 0) + countPList cs

/-- Number of `p` elements in a forest. -/
def countPList : List Node → Nat
  | [] => 0
  | c :: cs => countP c + countPList cs
end

mutual
/-- Number of `p` elements with an `img` descendant in a subtree. -/
def countPImg : Node → Nat
  | .text _ => 0
  | .elem t i c s cs =>
    (if t == "p" && hasImgDescendant (.elem t i c s cs) then 1 else 0) + countPImgList cs

/-- Number of `p` elements with an `img` descendant in a forest. -/
def countPImgList : List Node → Nat
  | [] => 0
  | c :: cs => countPImg c + countPImgList cs
end

/-! ### Concrete documents used as witnesses and counterexamples -/

/-- The always-successful image collaborator. -/
def fetchOk : Fetch := fun _ => .ok 200

/-- A document with an `h2` whose text is `'Changes'` (capital C),
followed by a `ul` — the input on which the two Changes-removal
implementations disagree. -/
def exChangesDoc : Node := .elem "[document]" none [] none
  [.elem "h2" none [] none [.text "Changes"], .elem "ul" none [] none [.text "a"]]

/-- A `div` containing a matching move-list heading, for the layout
classifier. -/
def exMovesDiv : Node := .elem "div" none [] none
  [.elem "h4" none [] none [.text "Moves learnt by level up"]]

/-- A document containing no `div` with id `dex-flavor`. -/
def exNoAnchor : Node := .elem "[document]" none [] none
  [.elem "h3" none [] none [.text "x"]]

/-- A document with one `h2` and one `h3` heading. -/
def exHeadings : Node := .elem "[document]" none [] none
  [.elem "h2" none [] none [.text "A"], .elem "h3" none [] none [.text "B"]]

/-- The spec's paragraph-pruning example: a paragraph with one image and
a paragraph of prose. -/
def exPara : Node := .elem "[document]" none [] none
  [.elem "p" none [] none [.elem "img" none [] (some "x") []],
   .elem "p" none [] none [.text "Some prose"]]

/-- The spec's table example: one row of two header cells and two rows of
two data cells each. -/
def exTable : Node := .elem "table" none [] none
  [.elem "tr" none [] none
    [.elem "th" none [] none [.text "A"], .elem "th" none [] none [.text "B"]],
   .elem "tr" none [] none
    [.elem "td" none [] none [.text "c"], .elem "td" none [] none [.text "d"]],
   .elem "tr" none [] none
    [.elem "td" none [] none [.text "e"], .elem "td" none [] none [.text "f"]]]

/-- The block data `exTable` converts to. -/
def exTableData : List (List Cell) :=
  [[⟨"A", true⟩, ⟨"B", true⟩], [⟨"c", false⟩, ⟨"d", false⟩],
   [⟨"e", false⟩, ⟨"f", false⟩]]

/-- The move-list heading of the two-column example container. -/
def exMovesH4 : Node := .elem "h4" none [] none [.text "Moves learnt by level up"]

/-- The single table of the two-column example container. -/
def exMovesTable : Node := .elem "table" none [] none
  [.elem "tr" none [] none
    [.elem "th" none [] none [.text "Move"], .elem "td" none [] none [.text "Tackle"]]]

/-- A two-column container holding a move-list heading and one table. -/
def exTwoColDiv : Node := .elem "div" none ["two-column"] none [exMovesH4, exMovesTable]

/-- A table none of whose rows contains a header or data cell. -/
def exEmptyTable : Node := .elem "table" none [] none
  [.elem "tr" none [] none [.text "x"]]

/-- A small document for instantiating the linearizer laws: a `div`
holding a heading and a paragraph with an image. -/
def exDoc : Node := .elem "div" none [] none
  [.elem "h2" none [] none [.text "Pikachu"],
   .elem "p" none [] none [.elem "img" none [] (some "art.png") []]]

/-! ## Theorems -/

/-- C2: on a tree with no node matching the anchor identifier
`dex-flavor`, the crawler.py variant of the Pokédex sibling-run removal
raises (an `AttributeError` from `None.find_next_sibling()`, modelled as
`Except.error`), while the guarded write_pdf.py variant is the no-op the
claim describes.  The claim's "no-op and not an error" therefore fails
for `remove_pokedex_entries` in crawler.py. -/
theorem c2_missing_anchor_crash :
    removePokedexCrawler exNoAnchor = Except.error () ∧
    removePokedexPdf exNoAnchor = exNoAnchor := ⟨rfl, rfl⟩

/-- C4: the heading-text predicate of crawler.py's `remove_changes` is
case-SENSITIVE (`'changes' in h2.get_text(strip=True)`, no `.lower()`),
so an `h2` with trimmed text `'Changes'` is NOT selected as anchor and
the tree is returned unchanged; write_pdf.py's lower-cased variant does
select and remove it.  The claim's case-insensitivity therefore fails for
crawler.py. -/
theorem c4_changes_case_sensitivity :
    removeChangesCrawler exChangesDoc = exChangesDoc ∧
    removeChangesPdf exChangesDoc = Node.elem "[document]" none [] none [] :=
  ⟨rfl, rfl⟩

/-- C5 counterexample: the layout classifier is NOT idempotent — on a
container already holding the `'two-column'` token (here: the result of a
first classification), a second run appends a duplicate token, so running
the classifier twice differs from running it once. -/
theorem c5_counterexample :
    movesTwoColumn (movesTwoColumn exMovesDiv) ≠ movesTwoColumn exMovesDiv := by
  intro h
  exact absurd (congrArg classesOf h) (by decide)

theorem textOfList_movesList (cs : List Node)
    (ih : ∀ x ∈ cs, getTextStrip (movesTwoColumn x) = getTextStrip x) :
    textOfList (movesTwoColumnList cs) = textOfList cs := by
  induction cs with
  | nil => rfl
  | cons c cs ihx =>
    simp only [movesTwoColumnList, textOfList]
    rw [ih c (by simp), ihx (fun y hy => ih y (by simp [hy]))]

theorem getTextStrip_moves : ∀ n, getTextStrip (movesTwoColumn n) = getTextStrip n := by
  intro n
  induction n using node_ind with
  | ht s => rfl
  | he t i c s cs ih =>
    simp only [movesTwoColumn, getTextStrip]
    exact textOfList_movesList cs ih

theorem isTag_moves (t : String) (n : Node) : isTag t (movesTwoColumn n) = isTag t n := by
  cases n with
  | text s => rfl
  | elem tg i c s cs => simp only [movesTwoColumn, isTag]

theorem matchingMovesH4_moves (n : Node) :
    matchingMovesH4 (movesTwoColumn n) = matchingMovesH4 n := by
  unfold matchingMovesH4
  rw [isTag_moves, getTextStrip_moves]

theorem isContainer_moves (n : Node) : isContainer (movesTwoColumn n) = isContainer n := by
  cases n with
  | text s => rfl
  | elem tg i c s cs => simp only [movesTwoColumn, isContainer]

theorem freeMatchesList_moves (cs : List Node)
    (ih : ∀ x ∈ cs, freeMatches (movesTwoColumn x) = freeMatches x) :
    freeMatchesList (movesTwoColumnList cs) = freeMatchesList cs := by
  induction cs with
  | nil => rfl
  | cons c cs ihx =>
    simp only [movesTwoColumnList, freeMatchesList]
    rw [isContainer_moves, ih c (by simp), ihx (fun y hy => ih y (by simp [hy]))]

theorem freeMatches_moves : ∀ n, freeMatches (movesTwoColumn n) = freeMatches n := by
  intro n
  induction n using node_ind with
  | ht s => rfl
  | he t i c s cs ih =>
    have hm : matchingMovesH4 (movesTwoColumn (.elem t i c s cs)) =
        matchingMovesH4 (.elem t i c s cs) := matchingMovesH4_moves _
    simp only [movesTwoColumn] at hm ⊢
    simp only [freeMatches, hm, freeMatchesList_moves cs ih]

theorem countTokenList_movesList (cs : List Node)
    (ih : ∀ x ∈ cs, countToken (movesTwoColumn x) = countToken x + totalClaimed x) :
    countTokenList (movesTwoColumnList cs) = countTokenList cs + totalClaimedList cs := by
  induction cs with
  | nil => rfl
  | cons c cs ihx =>
    simp only [movesTwoColumnList, countTokenList, totalClaimedList]
    rw [ih c (by simp), ihx (fun y hy => ih y (by simp [hy]))]
    omega

theorem countToken_moves : ∀ n, countToken (movesTwoColumn n) = countToken n + totalClaimed n := by
  intro n
  induction n using node_ind with
  | ht s => rfl
  | he t i c s cs ih =>
    simp only [movesTwoColumn, countToken, totalClaimed,
      countTokenList_movesList cs ih]
    by_cases hc : isContainerTag t = true
    · have hrep : (List.replicate (freeMatchesList cs) "two-column").count "two-column" =
          freeMatchesList cs := by
        simp [List.count_replicate]
      simp only [hc, if_true, List.count_append, hrep]
      omega
    · simp only [Bool.not_eq_true] at hc
      simp [hc]
      omega

theorem totalClaimedList_movesList (cs : List Node)
    (ih : ∀ x ∈ cs, totalClaimed (movesTwoColumn x) = totalClaimed x) :
    totalClaimedList (movesTwoColumnList cs) = totalClaimedList cs := by
  induction cs with
  | nil => rfl
  | cons c cs ihx =>
    simp only [movesTwoColumnList, totalClaimedList]
    rw [ih c (by simp), ihx (fun y hy => ih y (by simp [hy]))]

theorem totalClaimed_moves : ∀ n, totalClaimed (movesTwoColumn n) = totalClaimed n := by
  intro n
  induction n using node_ind with
  | ht s => rfl
  | he t i c s cs ih =>
    have hfree : ∀ x ∈ cs, freeMatches (movesTwoColumn x) = freeMatches x :=
      fun x _ => freeMatches_moves x
    simp only [movesTwoColumn, totalClaimed, freeMatchesList_moves cs hfree,
      totalClaimedList_movesList cs ih]

/-- C5 amended: the classifier appends the `'two-column'` token
unconditionally (no check-before-append), so on every tree in which at
least one matching move-list heading sits inside a `div`/`section`
container, running the classifier twice appends a duplicate token and
yields a different tree than running it once — the classifier is not
idempotent. -/
theorem c5_not_idempotent (t : Node) (h : 1 ≤ totalClaimed t) :
    movesTwoColumn (movesTwoColumn t) ≠ movesTwoColumn t := by
  intro heq
  have hcount := congrArg countToken heq
  rw [countToken_moves (movesTwoColumn t), countToken_moves t,
    totalClaimed_moves t] at hcount
  omega

/-- C5 amended, witness: the concrete move-list container has one claimed
match, so a second classification differs from the first. -/
theorem c5_not_idempotent_witness :
    1 ≤ totalClaimed exMovesDiv ∧
    movesTwoColumn (movesTwoColumn exMovesDiv) ≠ movesTwoColumn exMovesDiv :=
  ⟨by decide, c5_not_idempotent exMovesDiv (by decide)⟩

theorem retagList_pair_eq (cs : List Node)
    (ih : ∀ x ∈ cs, retag "h2" "h3" (retag "h3" "h4" x) = shiftHeading x) :
    retagList "h2" "h3" (retagList "h3" "h4" cs) = shiftHeadingList cs := by
  induction cs with
  | nil => rfl
  | cons c cs ihx =>
    simp only [retagList, shiftHeadingList]
    rw [ih c (by simp), ihx (fun y hy => ih y (by simp [hy]))]

theorem resize_eq_shift : ∀ n, resizeTitle n = shiftHeading n := by
  intro n
  induction n using node_ind with
  | ht s => rfl
  | he t i c s cs ih =>
    have ih2 : ∀ x ∈ cs, retag "h2" "h3" (retag "h3" "h4" x) = shiftHeading x :=
      fun x hx => ih x hx
    have hl := retagList_pair_eq cs ih2
    simp only [resizeTitle] at *
    by_cases h3 : (t == "h3") = true
    · rw [beq_iff_eq] at h3
      subst h3
      simp [retag, shiftHeading, hl]
    · by_cases h2 : (t == "h2") = true
      · rw [beq_iff_eq] at h2
        subst h2
        simp [retag, shiftHeading, hl]
      · simp [retag, shiftHeading, h3, h2, hl]

theorem shiftLvl_fix (t : String) (l : Nat) (hn2 : (t == "h2") = false)
    (hn3 : (t == "h3") = false) (h : levelOf t = some l) : shiftLvl l = l := by
  unfold levelOf at h
  repeat' split at h
  all_goals first
    | exact Option.noConfusion h
    | (injection h with h; subst h; decide)
    | simp_all

theorem headingLevelsList_shift (cs : List Node)
    (ih : ∀ x ∈ cs, headingLevels (shiftHeading x) = (headingLevels x).map shiftLvl) :
    headingLevelsList (shiftHeadingList cs) = (headingLevelsList cs).map shiftLvl := by
  induction cs with
  | nil => rfl
  | cons c cs ihx =>
    simp only [shiftHeadingList, headingLevelsList, List.map_append]
    rw [ih c (by simp), ihx (fun y hy => ih y (by simp [hy]))]

theorem headingLevels_shift :
    ∀ n, headingLevels (shiftHeading n) = (headingLevels n).map shiftLvl := by
  intro n
  induction n using node_ind with
  | ht s => rfl
  | he t i c s cs ih =>
    have hl := headingLevelsList_shift cs ih
    by_cases h3 : (t == "h3") = true
    · rw [beq_iff_eq] at h3
      subst h3
      simp [shiftHeading, headingLevels, levelOf, shiftLvl, hl]
    · by_cases h2 : (t == "h2") = true
      · rw [beq_iff_eq] at h2
        subst h2
        simp [shiftHeading, headingLevels, levelOf, shiftLvl, hl]
      · have h2f : (t == "h2") = false := by simpa using h2
        have h3f : (t == "h3") = false := by simpa using h3
        simp only [shiftHeading, h2f, h3f, Bool.false_eq_true, if_false,
          headingLevels, List.map_append, hl]
        congr 1
        rcases hlv : levelOf t with _ | l
        · rfl
        · simp [shiftLvl_fix t l h2f h3f hlv]

/-- C3: one application of the heading-shift pass equals the simultaneous
retagging that maps every original `h3` to `h4` and every original `h2`
to `h3` (children kept in place, no transitive re-application, hence no
level-2 heading ever reaches level 4); consequently a tree whose heading
levels lie in {2,3} has all heading levels in {3,4} afterwards. -/
theorem c3_heading_shift (t : Node) :
    resizeTitle t = shiftHeading t ∧
    ((∀ l ∈ headingLevels t, l = 2 ∨ l = 3) →
      ∀ l ∈ headingLevels (resizeTitle t), l = 3 ∨ l = 4) := by
  refine ⟨resize_eq_shift t, fun hsub l hl => ?_⟩
  rw [resize_eq_shift t, headingLevels_shift t] at hl
  rcases List.mem_map.mp hl with ⟨l0, hl0, rfl⟩
  rcases hsub l0 hl0 with h | h <;> subst h <;> simp [shiftLvl]

/-- C3 witness: a document with one `h2` and one `h3` heading. -/
theorem c3_heading_shift_witness :
    (∀ l ∈ headingLevels exHeadings, l = 2 ∨ l = 3) ∧
    resizeTitle exHeadings = shiftHeading exHeadings ∧
    (∀ l ∈ headingLevels (resizeTitle exHeadings), l = 3 ∨ l = 4) :=
  ⟨by decide, (c3_heading_shift exHeadings).1, (c3_heading_shift exHeadings).2 (by decide)⟩

theorem isImgIn_of_p (c : Node) (hp : isTag "p" c = true)
    (hni : hasImgDescendant c = false) : isImgIn c = false := by
  cases c with
  | text s => exact absurd hp (by simp [isTag])
  | elem t i cl s cs =>
    rw [isTag, beq_iff_eq] at hp
    subst hp
    rw [hasImgDescendant] at hni
    simp [isImgIn, hni]

theorem anyImg_rpList (cs : List Node)
    (ih : ∀ x ∈ cs, isImgIn (removeParagraphs x) = isImgIn x) :
    anyImg (removeParagraphsList cs) = anyImg cs := by
  induction cs with
  | nil => rfl
  | cons c cs ihx =>
    have ihtail := ihx (fun y hy => ih y (by simp [hy]))
    by_cases hd : (isTag "p" c && !hasImgDescendant c) = true
    · rw [Bool.and_eq_true, Bool.not_eq_true'] at hd
      have h0 : isImgIn c = false := isImgIn_of_p c hd.1 hd.2
      simp [removeParagraphsList, hd.1, hd.2, anyImg, h0, ihtail]
    · simp only [removeParagraphsList, hd, if_false, anyImg]
      rw [ih c (by simp), ihtail]

theorem isImgIn_rp : ∀ n, isImgIn (removeParagraphs n) = isImgIn n := by
  intro n
  induction n using node_ind with
  | ht s => rfl
  | he t i c s cs ih =>
    simp only [removeParagraphs, isImgIn]
    rw [anyImg_rpList cs ih]

theorem hasImgDescendant_rp (n : Node) :
    hasImgDescendant (removeParagraphs n) = hasImgDescendant n := by
  cases n with
  | text s => rfl
  | elem t i c s cs =>
    simp only [removeParagraphs, hasImgDescendant]
    exact anyImg_rpList cs (fun x _ => isImgIn_rp x)

theorem countPImgList_zero (cs : List Node)
    (ih : ∀ x ∈ cs, isImgIn x = false → countPImg x = 0)
    (h : anyImg cs = false) : countPImgList cs = 0 := by
  induction cs with
  | nil => rfl
  | cons c cs ihx =>
    rw [anyImg, Bool.or_eq_false_iff] at h
    rw [countPImgList, ih c (by simp) h.1,
      ihx (fun y hy => ih y (by simp [hy])) h.2]

theorem countPImg_zero : ∀ n, isImgIn n = false → countPImg n = 0 := by
  intro n
  induction n using node_ind with
  | ht s => intro _; rfl
  | he t i c s cs ih =>
    intro h
    rw [isImgIn, Bool.or_eq_false_iff] at h
    rw [countPImg, countPImgList_zero cs ih h.2]
    simp [hasImgDescendant, h.2]

theorem countPList_rp (cs : List Node)
    (ih : ∀ x ∈ cs, (isTag "p" x = true → hasImgDescendant x = true) →
      countP (removeParagraphs x) = countPImg x) :
    countPList (removeParagraphsList cs) = countPImgList cs := by
  induction cs with
  | nil => rfl
  | cons c cs ihx =>
    have ihtail := ihx (fun y hy hk => ih y (by simp [hy]) hk)
    by_cases hd : (isTag "p" c && !hasImgDescendant c) = true
    · rw [Bool.and_eq_true, Bool.not_eq_true'] at hd
      have h0 : countPImg c = 0 := countPImg_zero c (isImgIn_of_p c hd.1 hd.2)
      simp [removeParagraphsList, hd.1, hd.2, countPImgList, h0, ihtail]
    · have hk : isTag "p" c = true → hasImgDescendant c = true := by
        intro hp
        by_contra hni
        rw [Bool.not_eq_true] at hni
        exact hd (by rw [hp, hni]; rfl)
      simp only [removeParagraphsList, hd, if_false, countPList, countPImgList]
      rw [ih c (by simp) hk, ihtail]

theorem countP_rp : ∀ n, (isTag "p" n = true → hasImgDescendant n = true) →
    countP (removeParagraphs n) = countPImg n := by
  intro n
  induction n using node_ind with
  | ht s => intro _; rfl
  | he t i c s cs ih =>
    intro h
    simp only [removeParagraphs, countP, countPImg]
    rw [countPList_rp cs ih]
    by_cases hp : (t == "p") = true
    · have himg : hasImgDescendant (.elem t i c s cs) = true := h (by rw [isTag]; exact hp)
      simp [hp, himg]
    · simp only [Bool.not_eq_true] at hp
      simp [hp]

theorem allP_rpList (cs : List Node)
    (ih : ∀ x ∈ cs, (isTag "p" x = true → hasImgDescendant x = true) →
      ∀ m ∈ allNodes (removeParagraphs x), isTag "p" m = true → hasImgDescendant m = true) :
    ∀ m ∈ allNodesList (removeParagraphsList cs),
      isTag "p" m = true → hasImgDescendant m = true := by
  induction cs with
  | nil => intro m hm; exact absurd hm (by simp [allNodesList])
  | cons c cs ihx =>
    have ihtail := ihx (fun y hy => ih y (by simp [hy]))
    intro m hm
    by_cases hd : (isTag "p" c && !hasImgDescendant c) = true
    · rw [removeParagraphsList, if_pos hd] at hm
      exact ihtail m hm
    · rw [removeParagraphsList, if_neg hd] at hm
      rw [allNodesList, List.mem_append] at hm
      rcases hm with hm | hm
      · have hk : isTag "p" c = true → hasImgDescendant c = true := by
          intro hp
          by_contra hni
          rw [Bool.not_eq_true] at hni
          exact hd (by rw [hp, hni]; rfl)
        exact ih c (by simp) hk m hm
      · exact ihtail m hm

theorem allP_rp : ∀ n, (isTag "p" n = true → hasImgDescendant n = true) →
    ∀ m ∈ allNodes (removeParagraphs n), isTag "p" m = true → hasImgDescendant m = true := by
  intro n
  induction n using node_ind with
  | ht s =>
    intro _ m hm
    rw [removeParagraphs, allNodes, List.mem_singleton] at hm
    subst hm
    intro hp
    exact absurd hp (by simp [isTag])
  | he t i c s cs ih =>
    intro h m hm
    rw [removeParagraphs, allNodes, List.mem_cons] at hm
    rcases hm with hm | hm
    · subst hm
      intro hp
      rw [hasImgDescendant, anyImg_rpList cs (fun x _ => isImgIn_rp x)]
      simp only [isTag] at hp
      exact h (by simp only [isTag]; exact hp)
    · exact allP_rpList cs ih m hm

/-- C6: the paragraph pruning removes exactly the paragraphs with no
image descendant — the number of `p` elements after pruning equals the
number of `p` elements with an `img` descendant before pruning, and every
`p` element remaining in the output has an `img` descendant. -/
theorem c6_paragraph_pruning (t : Node) (h : isTag "p" t = false) :
    countP (removeParagraphs t) = countPImg t ∧
    ∀ m ∈ allNodes (removeParagraphs t), isTag "p" m = true → hasImgDescendant m = true := by
  have hpre : isTag "p" t = true → hasImgDescendant t = true := by simp [h]
  exact ⟨countP_rp t hpre, allP_rp t hpre⟩

/-- C6 witness: the spec's example document (one paragraph with an image,
one paragraph of prose). -/
theorem c6_paragraph_pruning_witness :
    isTag "p" exPara = false ∧ countP (removeParagraphs exPara) = countPImg exPara :=
  ⟨by decide, (c6_paragraph_pruning exPara (by decide)).1⟩

/-- C10: a table none of whose rows holds a `th` or `td` cell converts to
`None` (`if not data: return None`) and the traversal appends no block at
all for it (`if table:` fails), rather than emitting an empty Table. -/
theorem c10_empty_table (fetch : Fetch) (t : Node) (htag : tagOf t = some "table")
    (hcells : ∀ tr ∈ findAllTag "tr" t,
      (findAllTag "th" tr).isEmpty = true ∧ (findAllTag "td" tr).isEmpty = true) :
    convertTable t = none ∧ processElement fetch t = [] := by
  have hdata : tableData t = [] := by
    rw [tableData, List.filterMap_eq_nil_iff]
    intro tr htr
    obtain ⟨hth, htd⟩ := hcells tr htr
    rw [List.isEmpty_iff] at hth htd
    simp [rowOf, hth, htd]
  have hnone : convertTable t = none := by simp [convertTable, hdata]
  refine ⟨hnone, ?_⟩
  cases t with
  | text s => exact absurd htag (by simp [tagOf])
  | elem tg i c s cs =>
    simp only [tagOf] at htag
    injection htag with htag
    subst htag
    simp [processElement, hnone]

/-- C10 witness: a table whose single row holds only a text node. -/
theorem c10_empty_table_witness :
    tagOf exEmptyTable = some "table" ∧ convertTable exEmptyTable = none ∧
    processElement fetchOk exEmptyTable = [] := by
  have h := c10_empty_table fetchOk exEmptyTable (by decide) (by decide)
  exact ⟨by decide, h.1, h.2⟩

theorem filterMap_rows (l : List Node) :
    (l.filterMap (fun tr =>
      let r := rowOf tr
      if r.isEmpty then none else some r)) =
    (l.map rowOf).filter (fun r => !r.isEmpty) := by
  induction l with
  | nil => rfl
  | cons tr trs ihx =>
    simp only [List.filterMap_cons, List.map_cons, List.filter_cons]
    by_cases he : (rowOf tr).isEmpty = true
    · simp only [he, if_true, Bool.not_true, Bool.false_eq_true, if_false]
      exact ihx
    · simp only [Bool.not_eq_true] at he
      simp only [he, Bool.not_false, if_true, Bool.false_eq_true, if_false]
      rw [ihx]

theorem tableData_eq (t : Node) :
    tableData t = ((findAllTag "tr" t).map rowOf).filter (fun r => !r.isEmpty) := by
  rw [tableData]
  exact filterMap_rows _

theorem rowOf_headers_first (tr : Node) :
    rowOf tr = (rowOf tr).filter (fun c => c.header) ++
      (rowOf tr).filter (fun c => !c.header) := by
  have hA : ∀ c ∈ (findAllTag "th" tr).map (fun th => (⟨getTextStrip th, true⟩ : Cell)),
      c.header = true := by
    intro c hc
    rcases List.mem_map.mp hc with ⟨x, _, rfl⟩
    rfl
  have hB : ∀ c ∈ (findAllTag "td" tr).map (fun td => (⟨getTextStrip td, false⟩ : Cell)),
      c.header = false := by
    intro c hc
    rcases List.mem_map.mp hc with ⟨x, _, rfl⟩
    rfl
  rw [rowOf, List.filter_append, List.filter_append]
  rw [List.filter_eq_self.mpr (fun c hc => hA c hc),
    List.filter_eq_nil_iff.mpr (fun c hc => by simp [hB c hc]),
    List.filter_eq_nil_iff.mpr (fun c hc => by simp [hA c hc]),
    List.filter_eq_self.mpr (fun c hc => by simp [hB c hc])]
  simp

/-- C7: for every table node, the emitted data has one row per `tr` that
yields at least one cell, each row being that `tr`'s `th` cells (in
source order, header-flagged) followed by its `td` cells (in source
order, non-header) — so in every emitted row all header cells precede all
data cells; and on the spec's concrete example (one header row of two
cells, two data rows of two cells) the result is a 3-row table whose
first row is header-flagged and whose other rows are not. -/
theorem c7_table_conversion (t : Node) (d : List (List Cell))
    (h : convertTable t = some d) :
    d = ((findAllTag "tr" t).map rowOf).filter (fun r => !r.isEmpty) ∧
    (∀ r ∈ d, r ≠ [] ∧
      r = r.filter (fun c => c.header) ++ r.filter (fun c => !c.header)) ∧
    convertTable exTable = some exTableData := by
  have hd : d = tableData t := by
    by_cases he : (tableData t).isEmpty = true
    · exfalso
      rw [convertTable] at h
      simp [he] at h
    · rw [convertTable] at h
      simp [he] at h
      exact h.symm
  refine ⟨hd.trans (tableData_eq t), ?_, by decide⟩
  intro r hr
  rw [hd, tableData_eq t] at hr
  rcases List.mem_filter.mp hr with ⟨hmem, hne⟩
  rcases List.mem_map.mp hmem with ⟨tr, _, rfl⟩
  refine ⟨?_, rowOf_headers_first tr⟩
  simpa using hne

/-- C7 witness: the spec's example table. -/
theorem c7_table_conversion_witness :
    convertTable exTable = some exTableData ∧
    exTableData = ((findAllTag "tr" exTable).map rowOf).filter (fun r => !r.isEmpty) := by
  have h := c7_table_conversion exTable exTableData (by decide)
  exact ⟨by decide, h.1⟩

/-- C8: a `div` carrying the `two-column` class whose first `h3`/`h4`
descendant is a move-list heading and whose only table descendant has
non-empty data linearizes to exactly the group emission — the group
heading (a `PokemonHeading3` paragraph with the heading's text) followed
by one small-table grid entry and a spacer: one small table, no ordinary
`Table` block, and no additional standalone heading block for the inner
heading. -/
theorem c8_two_column_group (fetch : Fetch) (idA : Option String)
    (cls : List String) (srcA : Option String) (cs : List Node) (h tb : Node)
    (r0 : List String) (rs : List (List String))
    (hcls : cls.contains "two-column" = true)
    (hh : findFirstTags ["h3", "h4"] (.elem "div" idA cls srcA cs) = some h)
    (htxt : startsWithL (lowerStr (getTextStrip h)) "moves learnt by" = true)
    (htb : findAllTag "table" (.elem "div" idA cls srcA cs) = [tb])
    (hd : smallTableData tb = r0 :: rs)
    (hr0 : r0.isEmpty = false) :
    processElement fetch (.elem "div" idA cls srcA cs) =
      [.heading 3 (getTextStrip h), .smallTable (r0 :: rs), .spacer] ∧
    ((processElement fetch (.elem "div" idA cls srcA cs)).filter isSmallTableB).length = 1 ∧
    (processElement fetch (.elem "div" idA cls srcA cs)).filter isTableB = [] ∧
    (processElement fetch (.elem "div" idA cls srcA cs)).filter isHeadingB =
      [.heading 3 (getTextStrip h)] := by
  have hclsm : "two-column" ∈ cls := by simpa using hcls
  have hr0p : r0 ≠ [] := by simpa using hr0
  have hdisp : processElement fetch (.elem "div" idA cls srcA cs) =
      processTwoColumnDiv (.elem "div" idA cls srcA cs) := by
    simp [processElement, hclsm]
  have htwo : processTwoColumnDiv (.elem "div" idA cls srcA cs) =
      [.heading 3 (getTextStrip h), .smallTable (r0 :: rs), .spacer] := by
    rw [processTwoColumnDiv, hh, htb]
    simp [hd, hr0p]
  have hmain := hdisp.trans htwo
  refine ⟨hmain, ?_, ?_, ?_⟩ <;>
    rw [hmain] <;> simp [isSmallTableB, isTableB, isHeadingB]

/-- C8 witness: the concrete two-column container. -/
theorem c8_two_column_group_witness :
    processElement fetchOk exTwoColDiv =
      [.heading 3 (getTextStrip exMovesH4), .smallTable [["Move", "Tackle"]], .spacer] ∧
    (processElement fetchOk exTwoColDiv).filter isTableB = [] := by
  have h := c8_two_column_group fetchOk none ["two-column"] none
    [exMovesH4, exMovesTable] exMovesH4 exMovesTable ["Move", "Tackle"] []
    (by decide) rfl (by decide) rfl rfl (by decide)
  exact ⟨h.1, h.2.2.1⟩

theorem keep_processTwoColumnDiv (fetch : Fetch) (n : Node) :
    (processTwoColumnDiv n).filter (keepBlock fetch) = processTwoColumnDiv n := by
  rw [processTwoColumnDiv, List.filter_append]
  congr 1
  · rcases findFirstTags ["h3", "h4"] n with _ | hh <;> rfl
  · rcases findAllTag "table" n with _ | ⟨t0, ts⟩
    · rfl
    · show ((t0 :: ts).flatMap _).filter _ = (t0 :: ts).flatMap _
      induction (t0 :: ts) with
      | nil => rfl
      | cons a l ihx =>
        rw [List.flatMap_cons, List.filter_append, ihx]
        congr 1
        rcases smallTableData a with _ | ⟨r0, rs⟩
        · rfl
        · by_cases hr : r0.isEmpty = true
          · simp [hr]
          · simp [hr, keepBlock]

theorem processList_filter (fetch : Fetch) (cs : List Node)
    (ih : ∀ x ∈ cs, processElement fetch x = (processElement fetchOk x).filter (keepBlock fetch)) :
    processList fetch cs = (processList fetchOk cs).filter (keepBlock fetch) := by
  induction cs with
  | nil => rfl
  | cons c rest ihx =>
    rw [processList, processList, List.filter_append, ih c (by simp),
      ihx (fun y hy => ih y (by simp [hy]))]

/-- C9: failed image retrieval only omits that image block — for every
image collaborator `fetch` (which may raise, modelled as `Except.error`,
or return a non-200 status), the linearizer still terminates with a
value, and its output equals the output under an always-successful
collaborator with exactly the image blocks whose fetch did not return
status 200 removed; every non-image block is emitted unchanged. -/
theorem c9_image_fetch_failure (fetch : Fetch) (n : Node) :
    processElement fetch n = (processElement fetchOk n).filter (keepBlock fetch) := by
  induction n using node_ind with
  | ht s => rfl
  | he tag idA cls srcA cs ih =>
    by_cases b2 : tag = "h2"
    · subst b2; simp [processElement, keepBlock]
    · by_cases b3 : tag = "h3"
      · subst b3; simp [processElement, keepBlock]
      · by_cases b4 : tag = "h4"
        · subst b4; simp [processElement, keepBlock]
        · by_cases bt : tag = "table"
          · subst bt
            rcases hconv : convertTable (.elem "table" idA cls srcA cs) with _ | d
            · simp [processElement, hconv]
            · simp [processElement, hconv, keepBlock]
          · by_cases b5 : tag = "div" ∧ "two-column" ∈ cls
            · obtain ⟨rfl, hm⟩ := b5
              simp [processElement, hm, keep_processTwoColumnDiv]
            · by_cases b6 : tag = "div"
              · subst b6
                have hm : ¬"two-column" ∈ cls := fun hmem => b5 ⟨rfl, hmem⟩
                simp [processElement, hm, processList_filter fetch cs ih]
              · by_cases b7 : tag = "p" ∧
                    hasImgDescendant (.elem tag idA cls srcA cs) = true
                · obtain ⟨rfl, hImg⟩ := b7
                  rcases hfi : findFirstTag "img" (.elem "p" idA cls srcA cs) with _ | img
                  · simp [processElement, hImg, hfi]
                  · rcases hsrc : srcOf img with _ | s
                    · simp [processElement, hImg, hfi, hsrc]
                    · by_cases hse : s.isEmpty = true
                      · simp [processElement, hImg, hfi, hsrc, hse]
                      · rcases hf : fetch s with u | st
                        · simp [processElement, hImg, hfi, hsrc, hse, hf,
                            keepBlock, fetchOk]
                        · by_cases h200 : st = 200
                          · subst h200
                            simp [processElement, hImg, hfi, hsrc, hse, hf,
                              keepBlock, fetchOk]
                          · simp [processElement, hImg, hfi, hsrc, hse, hf, h200,
                              keepBlock, fetchOk]
                · by_cases b8 : (!cs.isEmpty && !(tag == "script" || tag == "style")) = true
                  · simp [processElement, b2, b3, b4, bt, b5, b6, b7, if_pos b8,
                      processList_filter fetch cs ih]
                  · simp [processElement, b2, b3, b4, bt, b5, b6, b7, if_neg b8]

theorem nodeSize_pos : ∀ n, 1 ≤ nodeSize n := by
  intro n
  cases n <;> simp [nodeSize]

theorem goIndexedList_snd (fetch : Fetch) (cs : List Node)
    (ih : ∀ x ∈ cs, ∀ i, (goIndexed fetch i x).map Prod.snd = processElement fetch x) :
    ∀ i, (goIndexedList fetch i cs).map Prod.snd = processList fetch cs := by
  induction cs with
  | nil => intro i; rfl
  | cons c rest ihx =>
    intro i
    rw [goIndexedList, processList, List.map_append, ih c (by simp) i,
      ihx (fun y hy => ih y (by simp [hy])) (i + nodeSize c)]

theorem goIndexed_snd (fetch : Fetch) :
    ∀ n i, (goIndexed fetch i n).map Prod.snd = processElement fetch n := by
  intro n
  induction n using node_ind with
  | ht s => intro i; rfl
  | he tag idA cls srcA cs ih =>
    intro i
    have hlist := goIndexedList_snd fetch cs ih
    by_cases b2 : tag = "h2"
    · subst b2; simp [goIndexed, processElement]
    · by_cases b3 : tag = "h3"
      · subst b3; simp [goIndexed, processElement]
      · by_cases b4 : tag = "h4"
        · subst b4; simp [goIndexed, processElement]
        · by_cases bt : tag = "table"
          · subst bt
            rcases hconv : convertTable (.elem "table" idA cls srcA cs) with _ | d
            · simp [goIndexed, processElement, hconv]
            · simp [goIndexed, processElement, hconv]
          · by_cases b5 : tag = "div" ∧ "two-column" ∈ cls
            · obtain ⟨rfl, hm⟩ := b5
              simp [goIndexed, processElement, hm, List.map_map, Function.comp]
            · by_cases b6 : tag = "div"
              · subst b6
                have hm : ¬"two-column" ∈ cls := fun hmem => b5 ⟨rfl, hmem⟩
                simp [goIndexed, processElement, hm, hlist]
              · by_cases b7 : tag = "p" ∧
                    hasImgDescendant (.elem tag idA cls srcA cs) = true
                · obtain ⟨rfl, hImg⟩ := b7
                  simp [goIndexed, processElement, hImg, List.map_map, Function.comp]
                · by_cases b8 : (!cs.isEmpty && !(tag == "script" || tag == "style")) = true
                  · simp [goIndexed, processElement, b2, b3, b4, bt, b5, b6, b7,
                      if_pos b8, hlist]
                  · simp [goIndexed, processElement, b2, b3, b4, bt, b5, b6, b7,
                      if_neg b8]

theorem sorted_const_fst (l : List Flowable) (i : Nat) :
    ((l.map (fun b => (i, b))).map Prod.fst).Sorted (· ≤ ·) := by
  induction l with
  | nil => simp
  | cons a l ihx =>
    simp only [List.map_cons, List.sorted_cons]
    refine ⟨?_, ihx⟩
    intro b hb
    rcases List.mem_map.mp hb with ⟨q, hq, rfl⟩
    rcases List.mem_map.mp hq with ⟨x, _, rfl⟩
    exact le_refl i

theorem goIndexedList_bounds (fetch : Fetch) (cs : List Node)
    (ih : ∀ x ∈ cs, ∀ i,
      (∀ q ∈ goIndexed fetch i x, i ≤ q.1 ∧ q.1 < i + nodeSize x) ∧
      ((goIndexed fetch i x).map Prod.fst).Sorted (· ≤ ·)) :
    ∀ i, (∀ q ∈ goIndexedList fetch i cs, i ≤ q.1 ∧ q.1 < i + nodesSize cs) ∧
      ((goIndexedList fetch i cs).map Prod.fst).Sorted (· ≤ ·) := by
  induction cs with
  | nil =>
    intro i
    constructor
    · intro q hq
      exact absurd hq (by simp [goIndexedList])
    · simp [goIndexedList]
  | cons c rest ihx =>
    intro i
    have hc := ih c (by simp) i
    have hrest := ihx (fun y hy => ih y (by simp [hy])) (i + nodeSize c)
    have hsize : nodesSize (c :: rest) = nodeSize c + nodesSize rest := rfl
    constructor
    · intro q hq
      rw [goIndexedList, List.mem_append] at hq
      rcases hq with hq | hq
      · have := hc.1 q hq
        omega
      · have := hrest.1 q hq
        omega
    · rw [goIndexedList, List.map_append]
      refine List.pairwise_append.mpr ⟨hc.2, hrest.2, ?_⟩
      intro a ha b hb
      rcases List.mem_map.mp ha with ⟨q, hq, rfl⟩
      rcases List.mem_map.mp hb with ⟨p, hp, rfl⟩
      have h1 := (hc.1 q hq).2
      have h2 := (hrest.1 p hp).1
      omega

theorem goIndexed_bounds (fetch : Fetch) :
    ∀ n i, (∀ q ∈ goIndexed fetch i n, i ≤ q.1 ∧ q.1 < i + nodeSize n) ∧
      ((goIndexed fetch i n).map Prod.fst).Sorted (· ≤ ·) := by
  intro n
  induction n using node_ind with
  | ht s =>
    intro i
    constructor
    · intro q hq
      exact absurd hq (by simp [goIndexed])
    · simp [goIndexed]
  | he tag idA cls srcA cs ih =>
    intro i
    have hlist := goIndexedList_bounds fetch cs ih (i + 1)
    have hones : 1 ≤ nodeSize (Node.elem tag idA cls srcA cs) :=
      nodeSize_pos _
    have hsz : nodeSize (Node.elem tag idA cls srcA cs) = 1 + nodesSize cs := rfl
    have hconst : ∀ (l : List Flowable),
        (∀ q ∈ l.map (fun b => (i, b)), i ≤ q.1 ∧
          q.1 < i + nodeSize (Node.elem tag idA cls srcA cs)) ∧
        ((l.map (fun b => (i, b))).map Prod.fst).Sorted (· ≤ ·) := by
      intro l
      constructor
      · intro q hq
        rcases List.mem_map.mp hq with ⟨x, _, rfl⟩
        simp
        omega
      · exact sorted_const_fst l i
    have hrec : (∀ q ∈ goIndexedList fetch (i + 1) cs,
          i ≤ q.1 ∧ q.1 < i + nodeSize (Node.elem tag idA cls srcA cs)) ∧
        ((goIndexedList fetch (i + 1) cs).map Prod.fst).Sorted (· ≤ ·) := by
      constructor
      · intro q hq
        have := hlist.1 q hq
        omega
      · exact hlist.2
    by_cases b2 : tag = "h2"
    · subst b2
      constructor
      · intro q hq
        simp [goIndexed] at hq
        rcases hq with rfl | rfl <;> simp [hsz]
      · simp [goIndexed]
    · by_cases b3 : tag = "h3"
      · subst b3
        constructor
        · intro q hq
          simp [goIndexed] at hq
          rcases hq with rfl | rfl <;> simp [hsz]
        · simp [goIndexed]
      · by_cases b4 : tag = "h4"
        · subst b4
          constructor
          · intro q hq
            simp [goIndexed] at hq
            rcases hq with rfl | rfl <;> simp [hsz]
          · simp [goIndexed]
        · by_cases bt : tag = "table"
          · subst bt
            rcases hconv : convertTable (.elem "table" idA cls srcA cs) with _ | d
            · constructor
              · intro q hq
                exact absurd hq (by simp [goIndexed, hconv])
              · simp [goIndexed, hconv]
            · constructor
              · intro q hq
                simp [goIndexed, hconv] at hq
                rcases hq with rfl | rfl | rfl <;> simp [hsz]
              · simp [goIndexed, hconv]
          · by_cases b5 : tag = "div" ∧ "two-column" ∈ cls
            · obtain ⟨rfl, hm⟩ := b5
              have h := hconst (processTwoColumnDiv (.elem "div" idA cls srcA cs))
              constructor
              · intro q hq
                refine h.1 q ?_
                simpa [goIndexed, hm] using hq
              · have := h.2
                simpa [goIndexed, hm] using this
            · by_cases b6 : tag = "div"
              · subst b6
                have hm : ¬"two-column" ∈ cls := fun hmem => b5 ⟨rfl, hmem⟩
                constructor
                · intro q hq
                  refine hrec.1 q ?_
                  simpa [goIndexed, hm] using hq
                · have := hrec.2
                  simpa [goIndexed, hm] using this
              · by_cases b7 : tag = "p" ∧
                    hasImgDescendant (.elem tag idA cls srcA cs) = true
                · obtain ⟨rfl, hImg⟩ := b7
                  have h := hconst (processElement fetch (.elem "p" idA cls srcA cs))
                  constructor
                  · intro q hq
                    refine h.1 q ?_
                    simpa [goIndexed, hImg] using hq
                  · have := h.2
                    simpa [goIndexed, hImg] using this
                · by_cases b8 : (!cs.isEmpty && !(tag == "script" || tag == "style")) = true
                  · constructor
                    · intro q hq
                      refine hrec.1 q ?_
                      simpa [goIndexed, b2, b3, b4, bt, b5, b6, b7, if_pos b8] using hq
                    · have := hrec.2
                      simpa [goIndexed, b2, b3, b4, bt, b5, b6, b7, if_pos b8] using this
                  · constructor
                    · intro q hq
                      exact absurd hq
                        (by simp [goIndexed, b2, b3, b4, bt, b5, b6, b7, if_neg b8])
                    · simp [goIndexed, b2, b3, b4, bt, b5, b6, b7, if_neg b8]

/-- C1: the linearizer emits blocks in the cleaned tree's document order
and is a deterministic function of the cleaned tree — pairing every
emitted flowable with the pre-order index of the node whose dispatch case
emitted it (`goIndexed`), the flowable sequence is exactly
`_process_element`'s output and the index sequence is monotone
(depth-first, children in stored order); and two runs of the full
conversion on equal cleaned trees produce equal block sequences. -/
theorem c1_document_order (fetch : Fetch) (i : Nat) (n : Node) :
    (goIndexed fetch i n).map Prod.snd = processElement fetch n ∧
    ((goIndexed fetch i n).map Prod.fst).Sorted (· ≤ ·) ∧
    ∀ m : Node, n = m → convertDoc fetch n = convertDoc fetch m := by
  exact ⟨goIndexed_snd fetch n i, (goIndexed_bounds fetch n i).2,
    fun m hm => hm ▸ rfl⟩

/-- C1 witness: the small example document at index 0. -/
theorem c1_document_order_witness :
    (goIndexed fetchOk 0 exDoc).map Prod.snd = processElement fetchOk exDoc ∧
    ((goIndexed fetchOk 0 exDoc).map Prod.fst).Sorted (· ≤ ·) ∧
    convertDoc fetchOk exDoc = convertDoc fetchOk exDoc := by
  have h := c1_document_order fetchOk 0 exDoc
  exact ⟨h.1, h.2.1, h.2.2 exDoc rfl⟩

end PokemonCrawler
